import Mathlib

/-!
Verification of the waluigi task scheduler (`src/waluigi`).

The graph module (`graph.py`) stores a directed graph as a dict
`edges : Directed value → set of values`, where `Right c ∈ edges[Left p]`
and `Left p ∈ edges[Right c]` record the edge `p → c` symmetrically, and
every key whose set becomes empty is deleted (`_remove`, `pop`).  Under
that maintained invariant the dict is determined by the set of directed
edges, so we embed a graph state as the finite set of its edges
`(p, c) : V × V`; `Left x ∈ edges` corresponds to "x has an outgoing
edge" and `Right x ∈ edges` to "x has an incoming edge".

Node values are the two sentinel objects `sentinel.leftmost`,
`sentinel.rightmost` plus arbitrary real values, embedded as `V`.
Python pops arbitrary elements from sets; we parametrise every traversal
by a `Picker` (any function choosing a member of a nonempty finite set),
so theorems quantify over all pop orders.  Recursions are fuelled so that
every definition is executable by the kernel; the fuel supplied is proved
sufficient inside each lemma.
-/

/-- Node values: the two sentinel anchors plus real nodes (task ids). -/
inductive V where
  | lm : V
  | rm : V
  | node : ℕ → V
deriving DecidableEq, Repr

/-- Injection used only to give `V` a linear order for the executable picker. -/
def V.toNat : V → ℕ
  | .lm => 0
  | .rm => 1
  | .node n => n + 2

theorem V.toNat_inj : Function.Injective V.toNat := by
  intro a b h
  cases a <;> cases b <;> simp [V.toNat] at h <;> simp [h]

instance : LinearOrder V := LinearOrder.lift' V.toNat V.toNat_inj

/-- Graph state: the set of directed edges `(parent, child)`.  This is the
`Graph.edges` dict of `graph.py` under its empty-sets-are-deleted invariant. -/
structure Graph where
  edges : Finset (V × V)
deriving DecidableEq

/-- Set of children of `x`: the set stored at key `Left x`. -/
def outSet (g : Graph) (x : V) : Finset V :=
  (g.edges.filter (fun e => e.1 = x)).image Prod.snd

/-- Set of parents of `x`: the set stored at key `Right x`. -/
def inSet (g : Graph) (x : V) : Finset V :=
  (g.edges.filter (fun e => e.2 = x)).image Prod.fst

/-- `Left x in self.edges`: x has at least one outgoing edge. -/
def hasL (g : Graph) (x : V) : Prop := (outSet g x).Nonempty

/-- `Right x in self.edges`: x has at least one incoming edge. -/
def hasR (g : Graph) (x : V) : Prop := (inSet g x).Nonempty

instance (g : Graph) (x : V) : Decidable (hasL g x) := by
  unfold hasL; infer_instance

instance (g : Graph) (x : V) : Decidable (hasR g x) := by
  unfold hasR; infer_instance

/-- `Graph.__init__`: empty graph holding only the anchor edge leftmost → rightmost. -/
def Graph.init : Graph := ⟨{(V.lm, V.rm)}⟩

/-- `Graph._add(Left l, Right r)`: record the edge l → r. -/
def addE (g : Graph) (l r : V) : Graph := ⟨insert (l, r) g.edges⟩

/-- `Graph._remove(Left l, Right r)`: discard the edge l → r. -/
def remE (g : Graph) (l r : V) : Graph := ⟨g.edges.erase (l, r)⟩

/-- `Graph.add(l)` (single argument): anchor an isolated node to both sentinels,
skipped when `Left l` is already a key. -/
def addNode (g : Graph) (x : V) : Graph :=
  if hasL g x then g else addE (addE g V.lm x) x V.rm

/-- `Graph.add(l, r)`: add the edge l → r, add the sentinel anchors each
endpoint still misses, then discard the now-redundant anchors of the endpoints. -/
def addEdge (g : Graph) (l r : V) : Graph :=
  let g1 := addE g l r
  let g2 := if hasR g1 l then g1 else addE g1 V.lm l
  let g3 := if hasL g2 r then g2 else addE g2 r V.rm
  remE (remE g3 V.lm r) l V.rm

/-- One graph-construction call, on real nodes, as issued by the scheduler. -/
inductive Op where
  | node : ℕ → Op
  | edge : ℕ → ℕ → Op
deriving DecidableEq, Repr

/-- Apply a recorded `Graph.add` call. -/
def applyOp (g : Graph) : Op → Graph
  | .node x => addNode g (V.node x)
  | .edge p c => addEdge g (V.node p) (V.node c)

/-- Build a graph from a fresh `Graph()` by a sequence of `add` calls. -/
def build (ops : List Op) : Graph := ops.foldl applyOp Graph.init

/-- A choice function for Python's arbitrary `set.pop()`. -/
structure Picker where
  pick : Finset V → V
  mem : ∀ s : Finset V, s.Nonempty → pick s ∈ s

/-- Executable picker choosing the minimum; used for concrete witnesses. -/
def minPicker : Picker where
  pick s := if h : s.Nonempty then s.min' h else V.lm
  mem s h := by simpa [h] using s.min'_mem h

/-- Drain all outgoing edges of `n` (the `graph.pops(direction(n))` loop of
`Graph._kahns`), collecting each child whose key `Right child` disappears
right after its edge is popped — the new frontier nodes.  Fuel-recursive;
`fuel ≥ (outSet g n).card` is enough. -/
def drainF (P : Picker) : ℕ → V → Graph → Finset V × Graph
  | 0, _, g => (∅, g)
  | fuel + 1, n, g =>
    if _h : (outSet g n).Nonempty then
      let c := P.pick (outSet g n)
      let g1 : Graph := ⟨g.edges.erase (n, c)⟩
      let res := drainF P fuel n g1
      (if inSet g1 c = ∅ then insert c res.1 else res.1, res.2)
    else (∅, g)

/-- The driver loop of `Graph.kahns`: repeatedly pop a frontier node, drain
its outgoing edges, and merge the new frontier nodes.  Fuel-recursive;
`fuel ≥ g.edges.card + roots.card` is enough. -/
def kahnsLoopF (P : Picker) : ℕ → Finset V → Graph → List V × Graph
  | 0, _, g => ([], g)
  | fuel + 1, roots, g =>
    if _h : roots.Nonempty then
      let n := P.pick roots
      let d := drainF P g.edges.card n g
      let res := kahnsLoopF P fuel ((roots.erase n) ∪ d.1) d.2
      (n :: res.1, res.2)
    else ([], g)

/-- `Graph.kahns` (direction `Left`): the emitted sequence and the drained
graph.  The `pure` flag of the source only chooses whether `self` or a copy
is mutated; the emitted sequence is the same, so the embedding is the pure
value.  The initial frontier is the leftmost sentinel. -/
def kahns (P : Picker) (g : Graph) : List V × Graph :=
  kahnsLoopF P (g.edges.card + 1) {V.lm} g

/-- `Graph.toposort`: run `kahns`; if edges remain the graph is cyclic and a
`ValueError` listing the residual edges is raised (embedded as `.error`
carrying the residual edge set), otherwise the emitted list is returned. -/
def toposort (P : Picker) (g : Graph) : Except (Finset (V × V)) (List V) :=
  let res := kahns P g
  if res.2.edges = ∅ then .ok res.1 else .error res.2.edges

instance {ε α : Type} [DecidableEq ε] [DecidableEq α] : DecidableEq (Except ε α) := fun a b =>
  match a, b with
  | .ok x, .ok y =>
    if h : x = y then .isTrue (by rw [h]) else .isFalse (by intro hh; cases hh; exact h rfl)
  | .error x, .error y =>
    if h : x = y then .isTrue (by rw [h]) else .isFalse (by intro hh; cases hh; exact h rfl)
  | .ok _, .error _ => .isFalse (by intro hh; cases hh)
  | .error _, .ok _ => .isFalse (by intro hh; cases hh)

example : toposort minPicker (build [Op.edge 0 1]) =
    Except.ok [V.lm, V.node 0, V.node 1, V.rm] := by decide

example : toposort minPicker (build [Op.edge 0 1, Op.edge 1 0]) =
    Except.error {(V.node 0, V.node 1), (V.node 1, V.node 0)} := by decide

theorem mem_outSet {g : Graph} {n c : V} : c ∈ outSet g n ↔ (n, c) ∈ g.edges := by
  simp only [outSet, Finset.mem_image, Finset.mem_filter]
  constructor
  · rintro ⟨⟨a, b⟩, ⟨hm, rfl⟩, rfl⟩; exact hm
  · intro h; exact ⟨(n, c), ⟨h, rfl⟩, rfl⟩

theorem mem_inSet {g : Graph} {x a : V} : a ∈ inSet g x ↔ (a, x) ∈ g.edges := by
  simp only [inSet, Finset.mem_image, Finset.mem_filter]
  constructor
  · rintro ⟨⟨p, q⟩, ⟨hm, rfl⟩, rfl⟩; exact hm
  · intro h; exact ⟨(a, x), ⟨h, rfl⟩, rfl⟩

theorem inSet_mono {g g' : Graph} (h : g'.edges ⊆ g.edges) (x : V) :
    inSet g' x ⊆ inSet g x := by
  intro a ha
  exact mem_inSet.mpr (h (mem_inSet.mp ha))

theorem edge_snd_mem_outSet {g : Graph} {e : V × V} (he : e ∈ g.edges) :
    e.2 ∈ outSet g e.1 :=
  mem_outSet.mpr (by simpa using he)

theorem outSet_erase (g : Graph) (n c : V) :
    outSet ⟨g.edges.erase (n, c)⟩ n = (outSet g n).erase c := by
  ext x
  constructor
  · intro hx
    obtain ⟨hne, hm⟩ := Finset.mem_erase.mp (mem_outSet.mp hx)
    exact Finset.mem_erase.mpr ⟨fun hxc => hne (by rw [hxc]), mem_outSet.mpr hm⟩
  · intro hx
    obtain ⟨hne, hm⟩ := Finset.mem_erase.mp hx
    exact mem_outSet.mpr
      (Finset.mem_erase.mpr ⟨fun heq => hne (congrArg Prod.snd heq), mem_outSet.mp hm⟩)

theorem outSet_card_le (g : Graph) (n : V) : (outSet g n).card ≤ g.edges.card :=
  le_trans Finset.card_image_le (Finset.card_filter_le _ _)

theorem filter_of_outSet_empty {g : Graph} {n : V} (hout : outSet g n = ∅) :
    g.edges.filter (fun e => e.1 ≠ n) = g.edges := by
  apply Finset.filter_true_of_mem
  intro e he hsrc
  have h2 := edge_snd_mem_outSet he
  rw [hsrc, hout] at h2
  simp at h2

theorem drainF_zero (P : Picker) (n : V) (g : Graph) : drainF P 0 n g = (∅, g) := rfl

theorem drainF_succ_of_empty (P : Picker) (fuel : ℕ) (n : V) (g : Graph)
    (h : ¬(outSet g n).Nonempty) : drainF P (fuel + 1) n g = (∅, g) := by
  simp [drainF, h]

theorem drainF_succ_of_nonempty (P : Picker) (fuel : ℕ) (n : V) (g : Graph)
    (h : (outSet g n).Nonempty) :
    drainF P (fuel + 1) n g =
      (if inSet ⟨g.edges.erase (n, P.pick (outSet g n))⟩ (P.pick (outSet g n)) = ∅
         then insert (P.pick (outSet g n))
           (drainF P fuel n ⟨g.edges.erase (n, P.pick (outSet g n))⟩).1
         else (drainF P fuel n ⟨g.edges.erase (n, P.pick (outSet g n))⟩).1,
       (drainF P fuel n ⟨g.edges.erase (n, P.pick (outSet g n))⟩).2) := by
  simp [drainF, h]

/-- Draining `n` removes exactly the edges whose source is `n`. -/
theorem drainF_edges (P : Picker) :
    ∀ (fuel : ℕ) (n : V) (g : Graph), (outSet g n).card ≤ fuel →
      (drainF P fuel n g).2.edges = g.edges.filter (fun e => e.1 ≠ n) := by
  intro fuel
  induction fuel with
  | zero =>
    intro n g hf
    have hout : outSet g n = ∅ := Finset.card_eq_zero.mp (Nat.le_zero.mp hf)
    rw [drainF_zero, filter_of_outSet_empty hout]
  | succ fuel ih =>
    intro n g hf
    by_cases h : (outSet g n).Nonempty
    · have hc0 : P.pick (outSet g n) ∈ outSet g n := P.mem _ h
      have hce : (n, P.pick (outSet g n)) ∈ g.edges := mem_outSet.mp hc0
      rw [drainF_succ_of_nonempty P fuel n g h]
      set c0 := P.pick (outSet g n) with hc0def
      set g1 : Graph := ⟨g.edges.erase (n, c0)⟩ with hg1
      have hcard : (outSet g1 n).card ≤ fuel := by
        rw [hg1, outSet_erase, Finset.card_erase_of_mem hc0]
        omega
      have hrec := ih n g1 hcard
      dsimp only
      rw [hrec]
      ext e
      have hg1e : g1.edges = g.edges.erase (n, c0) := rfl
      simp only [Finset.mem_filter, hg1e, Finset.mem_erase]
      constructor
      · rintro ⟨⟨_, hm⟩, hsrc⟩
        exact ⟨hm, hsrc⟩
      · rintro ⟨hm, hsrc⟩
        refine ⟨⟨fun hx => ?_, hm⟩, hsrc⟩
        rw [hx] at hsrc
        exact hsrc rfl
    · have hout : outSet g n = ∅ := Finset.not_nonempty_iff_eq_empty.mp h
      rw [drainF_succ_of_empty P fuel n g h, filter_of_outSet_empty hout]

/-- The residual graph after a drain is a subset of the starting graph. -/
theorem drainF_subset (P : Picker) (fuel : ℕ) (n : V) (g : Graph)
    (hf : (outSet g n).card ≤ fuel) :
    (drainF P fuel n g).2.edges ⊆ g.edges := by
  rw [drainF_edges P fuel n g hf]
  exact Finset.filter_subset _ _

/-- Every collected new frontier node was a child of `n` and has no incoming
edge left in the residual graph. -/
theorem drainF_sound (P : Picker) :
    ∀ (fuel : ℕ) (n : V) (g : Graph), (outSet g n).card ≤ fuel →
      ∀ c ∈ (drainF P fuel n g).1,
        (n, c) ∈ g.edges ∧ inSet (drainF P fuel n g).2 c = ∅ := by
  intro fuel
  induction fuel with
  | zero =>
    intro n g hf c hc
    simp [drainF_zero] at hc
  | succ fuel ih =>
    intro n g hf c hc
    by_cases h : (outSet g n).Nonempty
    · have hc0 : P.pick (outSet g n) ∈ outSet g n := P.mem _ h
      have hce : (n, P.pick (outSet g n)) ∈ g.edges := mem_outSet.mp hc0
      rw [drainF_succ_of_nonempty P fuel n g h] at hc ⊢
      set c0 := P.pick (outSet g n) with hc0def
      set g1 : Graph := ⟨g.edges.erase (n, c0)⟩ with hg1
      have hcard : (outSet g1 n).card ≤ fuel := by
        rw [hg1, outSet_erase, Finset.card_erase_of_mem hc0]
        omega
      have hsub : (drainF P fuel n g1).2.edges ⊆ g1.edges :=
        drainF_subset P fuel n g1 hcard
      have hg1sub : g1.edges ⊆ g.edges := by
        rw [hg1]
        exact Finset.erase_subset _ _
      dsimp only at hc ⊢
      split at hc
      next hempty =>
        rw [Finset.mem_insert] at hc
        rcases hc with hcc | hc
        · constructor
          · rw [hcc]; exact hce
          · apply Finset.eq_empty_of_forall_not_mem
            intro a ha
            have : a ∈ inSet g1 c := inSet_mono hsub c ha
            rw [hcc, hempty] at this
            simp at this
        · have hres := ih n g1 hcard c hc
          exact ⟨hg1sub hres.1, hres.2⟩
      next hempty =>
        have hres := ih n g1 hcard c hc
        exact ⟨hg1sub hres.1, hres.2⟩
    · rw [drainF_succ_of_empty P fuel n g h] at hc
      simp at hc

/-- Every child of `n` whose in-set is empty in the residual graph is
collected as a new frontier node. -/
theorem drainF_complete (P : Picker) :
    ∀ (fuel : ℕ) (n : V) (g : Graph), (outSet g n).card ≤ fuel →
      ∀ c, (n, c) ∈ g.edges → inSet (drainF P fuel n g).2 c = ∅ →
        c ∈ (drainF P fuel n g).1 := by
  intro fuel
  induction fuel with
  | zero =>
    intro n g hf c hce _
    have hout : outSet g n = ∅ := Finset.card_eq_zero.mp (Nat.le_zero.mp hf)
    have hmem : c ∈ outSet g n := mem_outSet.mpr hce
    rw [hout] at hmem
    simp at hmem
  | succ fuel ih =>
    intro n g hf c hce hins
    by_cases h : (outSet g n).Nonempty
    · have hc0 : P.pick (outSet g n) ∈ outSet g n := P.mem _ h
      rw [drainF_succ_of_nonempty P fuel n g h] at hins ⊢
      set c0 := P.pick (outSet g n) with hc0def
      set g1 : Graph := ⟨g.edges.erase (n, c0)⟩ with hg1
      have hcard : (outSet g1 n).card ≤ fuel := by
        rw [hg1, outSet_erase, Finset.card_erase_of_mem hc0]
        omega
      dsimp only at hins ⊢
      by_cases hcc : c = c0
      · have hflag : inSet g1 c0 = ∅ := by
          apply Finset.eq_empty_of_forall_not_mem
          intro a ha
          have ham : (a, c0) ∈ g1.edges := mem_inSet.mp ha
          have hane : a ≠ n := by
            intro hx
            rw [hx, hg1] at ham
            simp [Finset.mem_erase] at ham
          have hmem2 : (a, c0) ∈ (drainF P fuel n g1).2.edges := by
            rw [drainF_edges P fuel n g1 hcard]
            exact Finset.mem_filter.mpr ⟨ham, hane⟩
          have : a ∈ inSet (drainF P fuel n g1).2 c0 := mem_inSet.mpr hmem2
          rw [← hcc, hins] at this
          simp at this
        rw [if_pos hflag, hcc]
        exact Finset.mem_insert_self _ _
      · have hce1 : (n, c) ∈ g1.edges := by
          rw [hg1]
          exact Finset.mem_erase.mpr ⟨fun hx => hcc (congrArg Prod.snd hx), hce⟩
        have hrec := ih n g1 hcard c hce1 hins
        split
        · exact Finset.mem_insert_of_mem hrec
        · exact hrec
    · exact absurd ⟨c, mem_outSet.mpr hce⟩ h

/-- Edge accounting for one drain: new frontier nodes plus residual edges
never exceed the starting edges. -/
theorem drainF_card (P : Picker) :
    ∀ (fuel : ℕ) (n : V) (g : Graph),
      (drainF P fuel n g).1.card + (drainF P fuel n g).2.edges.card ≤ g.edges.card := by
  intro fuel
  induction fuel with
  | zero =>
    intro n g
    simp [drainF_zero]
  | succ fuel ih =>
    intro n g
    by_cases h : (outSet g n).Nonempty
    · have hc0 : P.pick (outSet g n) ∈ outSet g n := P.mem _ h
      have hce : (n, P.pick (outSet g n)) ∈ g.edges := mem_outSet.mp hc0
      rw [drainF_succ_of_nonempty P fuel n g h]
      set c0 := P.pick (outSet g n) with hc0def
      set g1 : Graph := ⟨g.edges.erase (n, c0)⟩ with hg1
      have hg1card : g1.edges.card = g.edges.card - 1 := by
        have hg1e : g1.edges = g.edges.erase (n, c0) := rfl
        rw [hg1e, Finset.card_erase_of_mem hce]
      have hrec := ih n g1
      have hpos : 1 ≤ g.edges.card := Finset.card_pos.mpr ⟨_, hce⟩
      dsimp only
      split
      · have hins := Finset.card_insert_le c0 (drainF P fuel n g1).1
        omega
      · omega
    · rw [drainF_succ_of_empty P fuel n g h]
      simp

theorem kahnsLoopF_zero (P : Picker) (roots : Finset V) (g : Graph) :
    kahnsLoopF P 0 roots g = ([], g) := rfl

theorem kahnsLoopF_of_empty (P : Picker) (fuel : ℕ) (roots : Finset V) (g : Graph)
    (h : ¬roots.Nonempty) : kahnsLoopF P (fuel + 1) roots g = ([], g) := by
  simp [kahnsLoopF, h]

theorem kahnsLoopF_of_nonempty (P : Picker) (fuel : ℕ) (roots : Finset V) (g : Graph)
    (h : roots.Nonempty) :
    kahnsLoopF P (fuel + 1) roots g =
      (P.pick roots ::
        (kahnsLoopF P fuel
          ((roots.erase (P.pick roots)) ∪ (drainF P g.edges.card (P.pick roots) g).1)
          (drainF P g.edges.card (P.pick roots) g).2).1,
       (kahnsLoopF P fuel
          ((roots.erase (P.pick roots)) ∪ (drainF P g.edges.card (P.pick roots) g).1)
          (drainF P g.edges.card (P.pick roots) g).2).2) := by
  simp [kahnsLoopF, h]

/-- One loop iteration strictly decreases edges-plus-frontier. -/
theorem kahns_measure (P : Picker) {roots : Finset V} {g : Graph} (h : roots.Nonempty) :
    (drainF P g.edges.card (P.pick roots) g).2.edges.card
      + ((roots.erase (P.pick roots)) ∪ (drainF P g.edges.card (P.pick roots) g).1).card
      + 1 ≤ g.edges.card + roots.card := by
  have hmem : P.pick roots ∈ roots := P.mem _ h
  have herase : (roots.erase (P.pick roots)).card = roots.card - 1 :=
    Finset.card_erase_of_mem hmem
  have hpos : 1 ≤ roots.card := Finset.card_pos.mpr ⟨_, hmem⟩
  have hunion := Finset.card_union_le (roots.erase (P.pick roots))
    (drainF P g.edges.card (P.pick roots) g).1
  have hdrain := drainF_card P g.edges.card (P.pick roots) g
  omega

/-- The frontier invariant (no frontier node has an incoming edge) survives
one loop iteration. -/
theorem kinv_step (P : Picker) {roots : Finset V} {g : Graph}
    (hInv : ∀ r ∈ roots, inSet g r = ∅) (_h : roots.Nonempty) :
    ∀ r ∈ (roots.erase (P.pick roots)) ∪ (drainF P g.edges.card (P.pick roots) g).1,
      inSet (drainF P g.edges.card (P.pick roots) g).2 r = ∅ := by
  intro r hr
  have hf : (outSet g (P.pick roots)).card ≤ g.edges.card := outSet_card_le g _
  rcases Finset.mem_union.mp hr with hr | hr
  · have hr' := Finset.mem_of_mem_erase hr
    apply Finset.eq_empty_of_forall_not_mem
    intro a ha
    have hmem : a ∈ inSet g r := inSet_mono (drainF_subset P _ _ g hf) r ha
    rw [hInv r hr'] at hmem
    simp at hmem
  · exact (drainF_sound P _ _ g hf r hr).2

/-- Everything the loop emits was a frontier node or the target of an edge. -/
theorem kahnsLoopF_mem (P : Picker) :
    ∀ (fuel : ℕ) (roots : Finset V) (g : Graph),
      ∀ x ∈ (kahnsLoopF P fuel roots g).1, x ∈ roots ∨ ∃ a, (a, x) ∈ g.edges := by
  intro fuel
  induction fuel with
  | zero =>
    intro roots g x hx
    simp [kahnsLoopF_zero] at hx
  | succ fuel ih =>
    intro roots g x hx
    by_cases h : roots.Nonempty
    · have hf : (outSet g (P.pick roots)).card ≤ g.edges.card := outSet_card_le g _
      rw [kahnsLoopF_of_nonempty P fuel roots g h] at hx
      dsimp only at hx
      rw [List.mem_cons] at hx
      rcases hx with rfl | hx
      · exact Or.inl (P.mem _ h)
      · rcases ih _ _ x hx with hx | ⟨a, ha⟩
        · rcases Finset.mem_union.mp hx with hx | hx
          · exact Or.inl (Finset.mem_of_mem_erase hx)
          · exact Or.inr ⟨_, (drainF_sound P _ _ g hf x hx).1⟩
        · exact Or.inr ⟨a, drainF_subset P _ _ g hf ha⟩
    · rw [kahnsLoopF_of_empty P fuel roots g h] at hx
      simp at hx

/-- When the loop drains the graph completely, it emits every frontier node
and every edge target. -/
theorem kahnsLoopF_complete (P : Picker) :
    ∀ (fuel : ℕ) (roots : Finset V) (g : Graph),
      g.edges.card + roots.card ≤ fuel →
      (kahnsLoopF P fuel roots g).2.edges = ∅ →
      ∀ x, (x ∈ roots ∨ ∃ a, (a, x) ∈ g.edges) → x ∈ (kahnsLoopF P fuel roots g).1 := by
  intro fuel
  induction fuel with
  | zero =>
    intro roots g hf _ x hx
    have hr : roots = ∅ := Finset.card_eq_zero.mp (by omega)
    have hg : g.edges.card = 0 := by omega
    have hge : g.edges = ∅ := Finset.card_eq_zero.mp hg
    rcases hx with hx | ⟨a, ha⟩
    · rw [hr] at hx; simp at hx
    · rw [hge] at ha; simp at ha
  | succ fuel ih =>
    intro roots g hf hempty x hx
    by_cases h : roots.Nonempty
    · have hof : (outSet g (P.pick roots)).card ≤ g.edges.card := outSet_card_le g _
      have hmeas := kahns_measure P (g := g) h
      rw [kahnsLoopF_of_nonempty P fuel roots g h] at hempty ⊢
      dsimp only at hempty ⊢
      have hf' : (drainF P g.edges.card (P.pick roots) g).2.edges.card
          + ((roots.erase (P.pick roots)) ∪ (drainF P g.edges.card (P.pick roots) g).1).card
          ≤ fuel := by omega
      rcases hx with hx | ⟨a, ha⟩
      · by_cases hxn : x = P.pick roots
        · rw [hxn]; exact List.mem_cons_self _ _
        · have hx' : x ∈ roots.erase (P.pick roots) := Finset.mem_erase.mpr ⟨hxn, hx⟩
          exact List.mem_cons_of_mem _
            (ih _ _ hf' hempty x (Or.inl (Finset.mem_union_left _ hx')))
      · by_cases han : a = P.pick roots
        · by_cases hi : inSet (drainF P g.edges.card (P.pick roots) g).2 x = ∅
          · have hxd : x ∈ (drainF P g.edges.card (P.pick roots) g).1 :=
              drainF_complete P _ _ g hof x (han ▸ ha) hi
            exact List.mem_cons_of_mem _
              (ih _ _ hf' hempty x (Or.inl (Finset.mem_union_right _ hxd)))
          · obtain ⟨b, hb⟩ := Finset.nonempty_iff_ne_empty.mpr hi
            exact List.mem_cons_of_mem _
              (ih _ _ hf' hempty x (Or.inr ⟨b, mem_inSet.mp hb⟩))
        · have had : (a, x) ∈ (drainF P g.edges.card (P.pick roots) g).2.edges := by
            rw [drainF_edges P _ _ g hof]
            exact Finset.mem_filter.mpr ⟨ha, han⟩
          exact List.mem_cons_of_mem _ (ih _ _ hf' hempty x (Or.inr ⟨a, had⟩))
    · rw [kahnsLoopF_of_empty P fuel roots g h] at hempty ⊢
      rcases hx with hx | ⟨a, ha⟩
      · exact absurd ⟨x, hx⟩ h
      · rw [hempty] at ha; simp at ha

/-- Edge-order correctness: when the loop drains the graph completely, the
source of every edge is emitted strictly before its target. -/
theorem kahnsLoopF_order (P : Picker) :
    ∀ (fuel : ℕ) (roots : Finset V) (g : Graph),
      g.edges.card + roots.card ≤ fuel →
      (∀ r ∈ roots, inSet g r = ∅) →
      (kahnsLoopF P fuel roots g).2.edges = ∅ →
      ∀ a b, (a, b) ∈ g.edges →
        ∃ l1 l2, (kahnsLoopF P fuel roots g).1 = l1 ++ l2 ∧
          a ∈ l1 ∧ b ∉ l1 ∧ b ∈ l2 := by
  intro fuel
  induction fuel with
  | zero =>
    intro roots g hf _ _ a b hab
    have hge : g.edges = ∅ := Finset.card_eq_zero.mp (by omega)
    rw [hge] at hab
    simp at hab
  | succ fuel ih =>
    intro roots g hf hInv hempty a b hab
    by_cases h : roots.Nonempty
    · have hof : (outSet g (P.pick roots)).card ≤ g.edges.card := outSet_card_le g _
      have hmeas := kahns_measure P (g := g) h
      rw [kahnsLoopF_of_nonempty P fuel roots g h] at hempty ⊢
      dsimp only at hempty ⊢
      have hf' : (drainF P g.edges.card (P.pick roots) g).2.edges.card
          + ((roots.erase (P.pick roots)) ∪ (drainF P g.edges.card (P.pick roots) g).1).card
          ≤ fuel := by omega
      have hInv' := kinv_step P hInv h
      have hbroots : b ∉ roots := by
        intro hb
        have hbin : a ∈ inSet g b := mem_inSet.mpr hab
        rw [hInv b hb] at hbin
        simp at hbin
      have hbn : b ≠ P.pick roots := fun hx => hbroots (hx ▸ P.mem _ h)
      by_cases han : a = P.pick roots
      · -- a is emitted now; b is emitted somewhere in the recursive output
        have hbrest : b ∈ (kahnsLoopF P fuel
            ((roots.erase (P.pick roots)) ∪ (drainF P g.edges.card (P.pick roots) g).1)
            (drainF P g.edges.card (P.pick roots) g).2).1 := by
          apply kahnsLoopF_complete P fuel _ _ hf' hempty
          by_cases hi : inSet (drainF P g.edges.card (P.pick roots) g).2 b = ∅
          · exact Or.inl (Finset.mem_union_right _
              (drainF_complete P _ _ g hof b (han ▸ hab) hi))
          · obtain ⟨p, hp⟩ := Finset.nonempty_iff_ne_empty.mpr hi
            exact Or.inr ⟨p, mem_inSet.mp hp⟩
        refine ⟨[P.pick roots], _, rfl, ?_, ?_, hbrest⟩
        · rw [han]; exact List.mem_singleton_self _
        · simp [hbn]
      · have hab' : (a, b) ∈ (drainF P g.edges.card (P.pick roots) g).2.edges := by
          rw [drainF_edges P _ _ g hof]
          exact Finset.mem_filter.mpr ⟨hab, han⟩
        obtain ⟨l1, l2, heq, ha1, hb1, hb2⟩ := ih _ _ hf' hInv' hempty a b hab'
        refine ⟨P.pick roots :: l1, l2, by rw [heq]; rfl, List.mem_cons_of_mem _ ha1, ?_, hb2⟩
        rw [List.mem_cons]
        rintro (hx | hx)
        · exact hbn hx
        · exact hb1 hx
    · have hge : g.edges = ∅ := by
        rw [kahnsLoopF_of_empty P fuel roots g h] at hempty
        exact hempty
      rw [hge] at hab
      simp at hab

/-- Under the frontier invariant the loop never emits a node twice. -/
theorem kahnsLoopF_nodup (P : Picker) :
    ∀ (fuel : ℕ) (roots : Finset V) (g : Graph),
      (∀ r ∈ roots, inSet g r = ∅) →
      (kahnsLoopF P fuel roots g).1.Nodup := by
  intro fuel
  induction fuel with
  | zero =>
    intro roots g _
    simp [kahnsLoopF_zero]
  | succ fuel ih =>
    intro roots g hInv
    by_cases h : roots.Nonempty
    · have hof : (outSet g (P.pick roots)).card ≤ g.edges.card := outSet_card_le g _
      have hInv' := kinv_step P hInv h
      have hpickmem : P.pick roots ∈ roots := P.mem _ h
      have hpickin : inSet g (P.pick roots) = ∅ := hInv _ hpickmem
      rw [kahnsLoopF_of_nonempty P fuel roots g h]
      dsimp only
      rw [List.nodup_cons]
      refine ⟨?_, ih _ _ hInv'⟩
      intro hmem
      rcases kahnsLoopF_mem P fuel _ _ _ hmem with hx | ⟨a, ha⟩
      · rcases Finset.mem_union.mp hx with hx | hx
        · exact Finset.not_mem_erase _ _ hx
        · have := (drainF_sound P _ _ g hof _ hx).1
          have : P.pick roots ∈ inSet g (P.pick roots) := mem_inSet.mpr this
          rw [hpickin] at this
          simp at this
      · have : a ∈ inSet g (P.pick roots) :=
          mem_inSet.mpr (drainF_subset P _ _ g hof ha)
        rw [hpickin] at this
        simp at this
    · rw [kahnsLoopF_of_empty P fuel roots g h]
      simp

theorem mem_addNode_cases {g : Graph} {x : V} {e : V × V}
    (he : e ∈ (addNode g x).edges) :
    e ∈ g.edges ∨ e = (V.lm, x) ∨ e = (x, V.rm) := by
  by_cases h : hasL g x
  · rw [addNode, if_pos h] at he
    exact Or.inl he
  · rw [addNode, if_neg h] at he
    simp only [addE, Finset.mem_insert] at he
    tauto

theorem addNode_mem_of_mem {g : Graph} {x : V} {e : V × V} (he : e ∈ g.edges) :
    e ∈ (addNode g x).edges := by
  by_cases h : hasL g x
  · rw [addNode, if_pos h]; exact he
  · rw [addNode, if_neg h]
    simp only [addE, Finset.mem_insert]
    tauto

theorem addNode_mem_anchors {g : Graph} {x : V} (h : ¬ hasL g x) :
    (V.lm, x) ∈ (addNode g x).edges ∧ (x, V.rm) ∈ (addNode g x).edges := by
  rw [addNode, if_neg h]
  simp only [addE, Finset.mem_insert]
  tauto

theorem mem_addEdge_cases {g : Graph} {l r : V} {e : V × V}
    (he : e ∈ (addEdge g l r).edges) :
    (e ∈ g.edges ∨ e = (l, r) ∨ e = (V.lm, l) ∨ e = (r, V.rm)) ∧
      e ≠ (V.lm, r) ∧ e ≠ (l, V.rm) := by
  simp only [addEdge] at he
  by_cases h1 : hasR (addE g l r) l
  · rw [if_pos h1] at he
    by_cases h2 : hasL (addE g l r) r
    · rw [if_pos h2] at he
      simp only [remE, addE, Finset.mem_erase, Finset.mem_insert] at he
      tauto
    · rw [if_neg h2] at he
      simp only [remE, addE, Finset.mem_erase, Finset.mem_insert] at he
      tauto
  · rw [if_neg h1] at he
    by_cases h2 : hasL (addE (addE g l r) V.lm l) r
    · rw [if_pos h2] at he
      simp only [remE, addE, Finset.mem_erase, Finset.mem_insert] at he
      tauto
    · rw [if_neg h2] at he
      simp only [remE, addE, Finset.mem_erase, Finset.mem_insert] at he
      tauto

theorem addEdge_mem_of_mem {g : Graph} {l r : V} {e : V × V} (he : e ∈ g.edges)
    (h1 : e ≠ (V.lm, r)) (h2 : e ≠ (l, V.rm)) : e ∈ (addEdge g l r).edges := by
  simp only [addEdge]
  by_cases hb1 : hasR (addE g l r) l
  · rw [if_pos hb1]
    by_cases hb2 : hasL (addE g l r) r
    · rw [if_pos hb2]
      simp only [remE, addE, Finset.mem_erase, Finset.mem_insert]
      tauto
    · rw [if_neg hb2]
      simp only [remE, addE, Finset.mem_erase, Finset.mem_insert]
      tauto
  · rw [if_neg hb1]
    by_cases hb2 : hasL (addE (addE g l r) V.lm l) r
    · rw [if_pos hb2]
      simp only [remE, addE, Finset.mem_erase, Finset.mem_insert]
      tauto
    · rw [if_neg hb2]
      simp only [remE, addE, Finset.mem_erase, Finset.mem_insert]
      tauto

theorem addEdge_mem_self (g : Graph) {l r : V} (hl : l ≠ V.lm) (hr : r ≠ V.rm) :
    (l, r) ∈ (addEdge g l r).edges := by
  have h1 : (l, r) ≠ (V.lm, r) := fun hx => hl (congrArg Prod.fst hx)
  have h2 : (l, r) ≠ (l, V.rm) := fun hx => hr (congrArg Prod.snd hx)
  simp only [addEdge]
  by_cases hb1 : hasR (addE g l r) l
  · rw [if_pos hb1]
    by_cases hb2 : hasL (addE g l r) r
    · rw [if_pos hb2]
      simp only [remE, addE, Finset.mem_erase, Finset.mem_insert]
      tauto
    · rw [if_neg hb2]
      simp only [remE, addE, Finset.mem_erase, Finset.mem_insert]
      tauto
  · rw [if_neg hb1]
    by_cases hb2 : hasL (addE (addE g l r) V.lm l) r
    · rw [if_pos hb2]
      simp only [remE, addE, Finset.mem_erase, Finset.mem_insert]
      tauto
    · rw [if_neg hb2]
      simp only [remE, addE, Finset.mem_erase, Finset.mem_insert]
      tauto

theorem addEdge_mem_lm_anchor {g : Graph} {l r : V} (h1 : ¬ hasR (addE g l r) l)
    (hlm : V.lm ≠ l) (hlr : l ≠ r) : (V.lm, l) ∈ (addEdge g l r).edges := by
  have hn1 : (V.lm, l) ≠ (V.lm, r) := fun hx => hlr (congrArg Prod.snd hx)
  have hn2 : (V.lm, l) ≠ (l, V.rm) := fun hx => hlm (congrArg Prod.fst hx)
  simp only [addEdge]
  rw [if_neg h1]
  by_cases hb2 : hasL (addE (addE g l r) V.lm l) r
  · rw [if_pos hb2]
    simp only [remE, addE, Finset.mem_erase, Finset.mem_insert]
    tauto
  · rw [if_neg hb2]
    simp only [remE, addE, Finset.mem_erase, Finset.mem_insert]
    tauto

theorem rm_anchor_ne_erased {l r : V} (hrl : r ≠ l) :
    (r, V.rm) ≠ (V.lm, r) ∧ (r, V.rm) ≠ (l, V.rm) := by
  constructor
  · intro hx
    have h1x := congrArg Prod.fst hx
    have h2x := congrArg Prod.snd hx
    simp only at h1x h2x
    rw [h1x] at h2x
    exact absurd h2x (by decide)
  · exact fun hx => hrl (congrArg Prod.fst hx)

theorem addEdge_mem_rm_anchor1 {g : Graph} {l r : V}
    (h1 : hasR (addE g l r) l) (h2 : ¬ hasL (addE g l r) r)
    (hrl : r ≠ l) : (r, V.rm) ∈ (addEdge g l r).edges := by
  obtain ⟨hn1, hn2⟩ := rm_anchor_ne_erased (l := l) (r := r) hrl
  simp only [addEdge]
  rw [if_pos h1, if_neg h2]
  simp only [remE, addE, Finset.mem_erase, Finset.mem_insert]
  tauto

theorem addEdge_mem_rm_anchor2 {g : Graph} {l r : V}
    (h1 : ¬ hasR (addE g l r) l) (h2 : ¬ hasL (addE (addE g l r) V.lm l) r)
    (hrl : r ≠ l) : (r, V.rm) ∈ (addEdge g l r).edges := by
  obtain ⟨hn1, hn2⟩ := rm_anchor_ne_erased (l := l) (r := r) hrl
  simp only [addEdge]
  rw [if_neg h1, if_neg h2]
  simp only [remE, addE, Finset.mem_erase, Finset.mem_insert]
  tauto


/-- Invariants of every graph the scheduler builds through `Graph.add` calls
on real (non-sentinel) values: nothing points at the leftmost sentinel,
nothing leaves the rightmost sentinel, the initial anchor edge survives, and
every real node touching an edge has both an incoming and an outgoing edge. -/
structure GInv (g : Graph) : Prop where
  no_in_lm : ∀ x : V, (x, V.lm) ∉ g.edges
  no_out_rm : ∀ x : V, (V.rm, x) ∉ g.edges
  anchor : (V.lm, V.rm) ∈ g.edges
  balanced : ∀ v : ℕ, (∃ e ∈ g.edges, e.1 = V.node v ∨ e.2 = V.node v) →
    (∃ a, (a, V.node v) ∈ g.edges) ∧ (∃ b, (V.node v, b) ∈ g.edges)

theorem ginv_init : GInv Graph.init := by
  refine ⟨?_, ?_, ?_, ?_⟩
  · intro x hx
    simp only [Graph.init, Finset.mem_singleton] at hx
    exact absurd (show V.lm = V.rm from congrArg Prod.snd hx) (by decide)
  · intro x hx
    simp only [Graph.init, Finset.mem_singleton] at hx
    exact absurd (show V.rm = V.lm from congrArg Prod.fst hx) (by decide)
  · simp [Graph.init]
  · rintro v ⟨e, he, hev⟩
    simp only [Graph.init, Finset.mem_singleton] at he
    rw [he] at hev
    rcases hev with h | h
    · exact absurd (show V.lm = V.node v from h) (by simp)
    · exact absurd (show V.rm = V.node v from h) (by simp)

theorem ginv_addNode {g : Graph} (hg : GInv g) (t : ℕ) : GInv (addNode g (V.node t)) := by
  by_cases h : hasL g (V.node t)
  · rw [addNode, if_pos h]
    exact hg
  · have hedges : (addNode g (V.node t)).edges =
        insert (V.node t, V.rm) (insert (V.lm, V.node t) g.edges) := by
      rw [addNode, if_neg h]
      rfl
    refine ⟨?_, ?_, ?_, ?_⟩
    · intro x hx
      rw [hedges] at hx
      rcases Finset.mem_insert.mp hx with heq | hx
      · exact absurd (show V.lm = V.rm from congrArg Prod.snd heq) (by decide)
      · rcases Finset.mem_insert.mp hx with heq | hx
        · exact absurd (show V.lm = V.node t from congrArg Prod.snd heq) (by simp)
        · exact hg.no_in_lm x hx
    · intro x hx
      rw [hedges] at hx
      rcases Finset.mem_insert.mp hx with heq | hx
      · exact absurd (show V.rm = V.node t from congrArg Prod.fst heq) (by simp)
      · rcases Finset.mem_insert.mp hx with heq | hx
        · exact absurd (show V.rm = V.lm from congrArg Prod.fst heq) (by decide)
        · exact hg.no_out_rm x hx
    · rw [hedges]
      exact Finset.mem_insert_of_mem (Finset.mem_insert_of_mem hg.anchor)
    · rintro v ⟨e, he, hev⟩
      rw [hedges] at he
      have hanchor1 : (V.lm, V.node t) ∈ (addNode g (V.node t)).edges := by
        rw [hedges]
        exact Finset.mem_insert_of_mem (Finset.mem_insert_self _ _)
      have hanchor2 : (V.node t, V.rm) ∈ (addNode g (V.node t)).edges := by
        rw [hedges]
        exact Finset.mem_insert_self _ _
      rcases Finset.mem_insert.mp he with heq | he
      · rw [heq] at hev
        rcases hev with hv | hv
        · obtain rfl := V.node.inj (show V.node t = V.node v from hv)
          exact ⟨⟨V.lm, hanchor1⟩, ⟨V.rm, hanchor2⟩⟩
        · exact absurd (show V.rm = V.node v from hv) (by simp)
      · rcases Finset.mem_insert.mp he with heq | he
        · rw [heq] at hev
          rcases hev with hv | hv
          · exact absurd (show V.lm = V.node v from hv) (by simp)
          · obtain rfl := V.node.inj (show V.node t = V.node v from hv)
            exact ⟨⟨V.lm, hanchor1⟩, ⟨V.rm, hanchor2⟩⟩
        · obtain ⟨⟨a, ha⟩, ⟨b, hb⟩⟩ := hg.balanced v ⟨e, he, hev⟩
          exact ⟨⟨a, addNode_mem_of_mem ha⟩, ⟨b, addNode_mem_of_mem hb⟩⟩

theorem addEdge_makes (g : Graph) (p c : ℕ) :
    (V.node p, V.node c) ∈ (addEdge g (V.node p) (V.node c)).edges :=
  addEdge_mem_self g (by simp) (by simp)

theorem ginv_addEdge {g : Graph} (hg : GInv g) (p c : ℕ) :
    GInv (addEdge g (V.node p) (V.node c)) := by
  have hF1 := addEdge_makes g p c
  have hPin : ∃ a, (a, V.node p) ∈ (addEdge g (V.node p) (V.node c)).edges := by
    by_cases hpc : p = c
    · subst hpc
      exact ⟨V.node p, hF1⟩
    · have hLR : V.node p ≠ V.node c := by simp [hpc]
      by_cases h1 : hasR (addE g (V.node p) (V.node c)) (V.node p)
      · simp only [hasR] at h1
        obtain ⟨a, ha⟩ := h1
        have ha' : (a, V.node p) ∈ (addE g (V.node p) (V.node c)).edges := mem_inSet.mp ha
        simp only [addE, Finset.mem_insert] at ha'
        rcases ha' with heq | hmem
        · exact absurd (show V.node p = V.node c from congrArg Prod.snd heq) hLR
        · refine ⟨a, addEdge_mem_of_mem hmem ?_ ?_⟩
          · intro hx
            exact hLR (show V.node p = V.node c from congrArg Prod.snd hx)
          · intro hx
            exact (by simp : V.node p ≠ V.rm) (show V.node p = V.rm from congrArg Prod.snd hx)
      · exact ⟨V.lm, addEdge_mem_lm_anchor h1 (by simp) hLR⟩
  have hCout : ∃ b, (V.node c, b) ∈ (addEdge g (V.node p) (V.node c)).edges := by
    by_cases hpc : p = c
    · subst hpc
      exact ⟨V.node p, hF1⟩
    · have hRL : V.node c ≠ V.node p := by simp [Ne.symm hpc]
      have keep : ∀ b : V, (V.node c, b) ∈ g.edges →
          (V.node c, b) ∈ (addEdge g (V.node p) (V.node c)).edges := by
        intro b hmem
        refine addEdge_mem_of_mem hmem ?_ ?_
        · intro hx
          exact (by simp : V.node c ≠ V.lm) (show V.node c = V.lm from congrArg Prod.fst hx)
        · intro hx
          exact hRL (show V.node c = V.node p from congrArg Prod.fst hx)
      by_cases h1 : hasR (addE g (V.node p) (V.node c)) (V.node p)
      · by_cases h2 : hasL (addE g (V.node p) (V.node c)) (V.node c)
        · simp only [hasL] at h2
          obtain ⟨b, hb⟩ := h2
          have hb' : (V.node c, b) ∈ (addE g (V.node p) (V.node c)).edges := mem_outSet.mp hb
          simp only [addE, Finset.mem_insert] at hb'
          rcases hb' with heq | hmem
          · exact absurd (show V.node c = V.node p from congrArg Prod.fst heq) hRL
          · exact ⟨b, keep b hmem⟩
        · exact ⟨V.rm, addEdge_mem_rm_anchor1 h1 h2 hRL⟩
      · by_cases h2 : hasL (addE (addE g (V.node p) (V.node c)) V.lm (V.node p)) (V.node c)
        · simp only [hasL] at h2
          obtain ⟨b, hb⟩ := h2
          have hb' : (V.node c, b) ∈
              (addE (addE g (V.node p) (V.node c)) V.lm (V.node p)).edges := mem_outSet.mp hb
          simp only [addE, Finset.mem_insert] at hb'
          rcases hb' with heq | heq | hmem
          · exact absurd (show V.node c = V.lm from congrArg Prod.fst heq) (by simp)
          · exact absurd (show V.node c = V.node p from congrArg Prod.fst heq) hRL
          · exact ⟨b, keep b hmem⟩
        · exact ⟨V.rm, addEdge_mem_rm_anchor2 h1 h2 hRL⟩
  refine ⟨?_, ?_, ?_, ?_⟩
  · intro x hx
    obtain ⟨hcases, -, -⟩ := mem_addEdge_cases hx
    rcases hcases with hmem | heq | heq | heq
    · exact hg.no_in_lm x hmem
    · exact absurd (show V.lm = V.node c from congrArg Prod.snd heq) (by simp)
    · exact absurd (show V.lm = V.node p from congrArg Prod.snd heq) (by simp)
    · exact absurd (show V.lm = V.rm from congrArg Prod.snd heq) (by decide)
  · intro x hx
    obtain ⟨hcases, -, -⟩ := mem_addEdge_cases hx
    rcases hcases with hmem | heq | heq | heq
    · exact hg.no_out_rm x hmem
    · exact absurd (show V.rm = V.node p from congrArg Prod.fst heq) (by simp)
    · exact absurd (show V.rm = V.lm from congrArg Prod.fst heq) (by decide)
    · exact absurd (show V.rm = V.node c from congrArg Prod.fst heq) (by simp)
  · refine addEdge_mem_of_mem hg.anchor ?_ ?_
    · intro hx
      exact (by simp : V.rm ≠ V.node c) (show V.rm = V.node c from congrArg Prod.snd hx)
    · intro hx
      exact (by simp : V.lm ≠ V.node p) (show V.lm = V.node p from congrArg Prod.fst hx)
  · rintro v ⟨e, he, hev⟩
    obtain ⟨hcases, -, -⟩ := mem_addEdge_cases he
    rcases hcases with hmem | heq | heq | heq
    · obtain ⟨⟨a, hain⟩, ⟨b, hbout⟩⟩ := hg.balanced v ⟨e, hmem, hev⟩
      constructor
      · by_cases hvc : v = c
        · subst hvc
          exact ⟨V.node p, hF1⟩
        · refine ⟨a, addEdge_mem_of_mem hain ?_ ?_⟩
          · intro hx
            exact (by simp [hvc] : V.node v ≠ V.node c)
              (show V.node v = V.node c from congrArg Prod.snd hx)
          · intro hx
            exact (by simp : V.node v ≠ V.rm) (show V.node v = V.rm from congrArg Prod.snd hx)
      · by_cases hvp : v = p
        · subst hvp
          exact ⟨V.node c, hF1⟩
        · refine ⟨b, addEdge_mem_of_mem hbout ?_ ?_⟩
          · intro hx
            exact (by simp : V.node v ≠ V.lm) (show V.node v = V.lm from congrArg Prod.fst hx)
          · intro hx
            exact (by simp [hvp] : V.node v ≠ V.node p)
              (show V.node v = V.node p from congrArg Prod.fst hx)
    · rw [heq] at hev
      rcases hev with h | h
      · obtain rfl := V.node.inj (show V.node p = V.node v from h)
        exact ⟨hPin, ⟨V.node c, hF1⟩⟩
      · obtain rfl := V.node.inj (show V.node c = V.node v from h)
        exact ⟨⟨V.node p, hF1⟩, hCout⟩
    · rw [heq] at hev
      rcases hev with h | h
      · exact absurd (show V.lm = V.node v from h) (by simp)
      · obtain rfl := V.node.inj (show V.node p = V.node v from h)
        exact ⟨hPin, ⟨V.node c, hF1⟩⟩
    · rw [heq] at hev
      rcases hev with h | h
      · obtain rfl := V.node.inj (show V.node c = V.node v from h)
        exact ⟨⟨V.node p, hF1⟩, hCout⟩
      · exact absurd (show V.rm = V.node v from h) (by simp)

theorem ginv_applyOp {g : Graph} (hg : GInv g) (op : Op) : GInv (applyOp g op) := by
  cases op with
  | node x => exact ginv_addNode hg x
  | edge p c => exact ginv_addEdge hg p c

theorem ginv_foldl : ∀ (ops : List Op) (g : Graph), GInv g → GInv (ops.foldl applyOp g) := by
  intro ops
  induction ops with
  | nil => exact fun g hg => hg
  | cons op rest ih => exact fun g hg => ih _ (ginv_applyOp hg op)

theorem ginv_build (ops : List Op) : GInv (build ops) := ginv_foldl ops _ ginv_init

theorem applyOp_keeps_real {g : Graph} {a b : ℕ} (op : Op)
    (he : (V.node a, V.node b) ∈ g.edges) :
    (V.node a, V.node b) ∈ (applyOp g op).edges := by
  cases op with
  | node x => exact addNode_mem_of_mem he
  | edge p c =>
    refine addEdge_mem_of_mem he ?_ ?_
    · intro hx
      exact (by simp : V.node a ≠ V.lm) (show V.node a = V.lm from congrArg Prod.fst hx)
    · intro hx
      exact (by simp : V.node b ≠ V.rm) (show V.node b = V.rm from congrArg Prod.snd hx)

theorem foldl_mem_edge : ∀ (ops : List Op) (g : Graph) (p c : ℕ),
    (Op.edge p c ∈ ops ∨ (V.node p, V.node c) ∈ g.edges) →
    (V.node p, V.node c) ∈ (ops.foldl applyOp g).edges := by
  intro ops
  induction ops with
  | nil =>
    intro g p c h
    rcases h with h | h
    · simp at h
    · exact h
  | cons op rest ih =>
    intro g p c h
    simp only [List.foldl_cons]
    apply ih
    rcases h with h | h
    · rw [List.mem_cons] at h
      rcases h with rfl | h
      · exact Or.inr (addEdge_makes g p c)
      · exact Or.inl h
    · exact Or.inr (applyOp_keeps_real op h)

theorem build_mem_edge {ops : List Op} {p c : ℕ} (h : Op.edge p c ∈ ops) :
    (V.node p, V.node c) ∈ (build ops).edges :=
  foldl_mem_edge ops Graph.init p c (Or.inl h)

theorem ginv_inSet_lm {g : Graph} (hg : GInv g) : inSet g V.lm = ∅ :=
  Finset.eq_empty_of_forall_not_mem (fun a ha => hg.no_in_lm a (mem_inSet.mp ha))

theorem toposort_ok_kahns {P : Picker} {g : Graph} {out : List V}
    (h : toposort P g = .ok out) :
    (kahns P g).1 = out ∧ (kahns P g).2.edges = ∅ := by
  simp only [toposort] at h
  split at h
  next hempty =>
    cases h
    exact ⟨rfl, hempty⟩
  next hempty =>
    cases h

theorem toposort_error_of_residual {P : Picker} {g : Graph}
    (h : (kahns P g).2.edges ≠ ∅) :
    toposort P g = .error (kahns P g).2.edges := by
  simp only [toposort]
  rw [if_neg h]

theorem singleton_lm_inv {g : Graph} (hg : inSet g V.lm = ∅) :
    ∀ r ∈ ({V.lm} : Finset V), inSet g r = ∅ := by
  intro r hr
  rw [Finset.mem_singleton] at hr
  rw [hr]
  exact hg

/-- Order correctness at `toposort` level: on success, the source of every
edge appears strictly before the target. -/
theorem toposort_ok_order (P : Picker) {g : Graph} {out : List V}
    (hlm : inSet g V.lm = ∅) (h : toposort P g = .ok out) :
    ∀ a b, (a, b) ∈ g.edges →
      ∃ l1 l2, out = l1 ++ l2 ∧ a ∈ l1 ∧ b ∉ l1 ∧ b ∈ l2 := by
  obtain ⟨hout, hempty⟩ := toposort_ok_kahns h
  intro a b hab
  have hfuel : g.edges.card + ({V.lm} : Finset V).card ≤ g.edges.card + 1 := by simp
  obtain ⟨l1, l2, heq, h1, h2, h3⟩ :=
    kahnsLoopF_order P (g.edges.card + 1) {V.lm} g hfuel (singleton_lm_inv hlm) hempty a b hab
  refine ⟨l1, l2, ?_, h1, h2, h3⟩
  rw [← hout]
  exact heq

theorem toposort_ok_nodup (P : Picker) {g : Graph} {out : List V}
    (hlm : inSet g V.lm = ∅) (h : toposort P g = .ok out) : out.Nodup := by
  obtain ⟨hout, _⟩ := toposort_ok_kahns h
  rw [← hout]
  exact kahnsLoopF_nodup P (g.edges.card + 1) {V.lm} g (singleton_lm_inv hlm)

/-- Membership characterisation at `toposort` level: on success the output
holds exactly the leftmost sentinel and every edge target. -/
theorem toposort_ok_mem (P : Picker) {g : Graph} {out : List V}
    (h : toposort P g = .ok out) :
    ∀ x, x ∈ out ↔ (x = V.lm ∨ ∃ a, (a, x) ∈ g.edges) := by
  obtain ⟨hout, hempty⟩ := toposort_ok_kahns h
  intro x
  have hfuel : g.edges.card + ({V.lm} : Finset V).card ≤ g.edges.card + 1 := by simp
  constructor
  · intro hx
    rw [← hout] at hx
    rcases kahnsLoopF_mem P (g.edges.card + 1) {V.lm} g x hx with hx | hx
    · exact Or.inl (Finset.mem_singleton.mp hx)
    · exact Or.inr hx
  · intro hx
    rw [← hout]
    apply kahnsLoopF_complete P (g.edges.card + 1) {V.lm} g hfuel hempty x
    rcases hx with rfl | hx
    · exact Or.inl (Finset.mem_singleton_self _)
    · exact Or.inr hx

theorem mem_right_of_append_concat :
    ∀ (l1 : List V) {l2 m : List V} {x : V}, l1 ++ l2 = m ++ [x] → l2 ≠ [] → x ∈ l2 := by
  intro l1
  induction l1 with
  | nil =>
    intro l2 m x heq hne
    simp only [List.nil_append] at heq
    rw [heq]
    simp
  | cons a l1 ih =>
    intro l2 m x heq hne
    cases m with
    | nil =>
      simp only [List.cons_append, List.nil_append] at heq
      have := congrArg List.tail heq
      simp only [List.tail_cons] at this
      have hnil := List.append_eq_nil.mp this
      exact absurd hnil.2 hne
    | cons b m' =>
      simp only [List.cons_append] at heq
      have := congrArg List.tail heq
      simp only [List.tail_cons] at this
      exact ih this hne

/-- Shape of a successful `toposort` on a scheduler-built graph: the leftmost
sentinel first, the rightmost sentinel last, real nodes in between. -/
theorem toposort_ok_shape (P : Picker) {g : Graph} {out : List V} (hg : GInv g)
    (h : toposort P g = .ok out) :
    ∃ mid, out = V.lm :: mid ++ [V.rm] ∧ ∀ x ∈ mid, ∃ n, x = V.node n := by
  have hmem := toposort_ok_mem P h
  have hnodup := toposort_ok_nodup P (ginv_inSet_lm hg) h
  have hlm_mem : V.lm ∈ out := (hmem V.lm).mpr (Or.inl rfl)
  have hrm_mem : V.rm ∈ out := (hmem V.rm).mpr (Or.inr ⟨V.lm, hg.anchor⟩)
  -- the head of the output is the leftmost sentinel
  obtain ⟨rest, hout⟩ : ∃ rest, out = V.lm :: rest := by
    obtain ⟨houtk, _⟩ := toposort_ok_kahns h
    have hne : ({V.lm} : Finset V).Nonempty := ⟨V.lm, Finset.mem_singleton_self _⟩
    have heq := kahnsLoopF_of_nonempty P g.edges.card {V.lm} g hne
    have hpick : P.pick {V.lm} = V.lm := Finset.mem_singleton.mp (P.mem _ hne)
    refine ⟨(kahnsLoopF P g.edges.card
      (({V.lm} : Finset V).erase (P.pick {V.lm}) ∪ (drainF P g.edges.card (P.pick {V.lm}) g).1)
      (drainF P g.edges.card (P.pick {V.lm}) g).2).1, ?_⟩
    rw [← houtk]
    show (kahnsLoopF P (g.edges.card + 1) {V.lm} g).1 = _
    rw [heq, hpick]
  have hrest_ne : rest ≠ [] := by
    intro hnil
    rw [hout, hnil] at hrm_mem
    rw [List.mem_singleton] at hrm_mem
    exact absurd hrm_mem (by decide)
  have hlm_notin_rest : V.lm ∉ rest := by
    rw [hout] at hnodup
    exact (List.nodup_cons.mp hnodup).1
  obtain ⟨z, mid, hrest⟩ : ∃ z mid, rest = mid ++ [z] :=
    ⟨rest.getLast hrest_ne, rest.dropLast, (List.dropLast_append_getLast hrest_ne).symm⟩
  have hz_mem : z ∈ out := by
    rw [hout, hrest]
    simp
  have hz_ne_lm : z ≠ V.lm := by
    intro hzl
    apply hlm_notin_rest
    rw [hrest, hzl]
    simp
  -- the last element has no outgoing edge, otherwise the order lemma would
  -- place the target strictly later
  have hz_no_out : ∀ y, (z, y) ∉ g.edges := by
    intro y hy
    obtain ⟨l1, l2, heq, hz1, hy1, hy2⟩ :=
      toposort_ok_order P (ginv_inSet_lm hg) h z y hy
    have hl2ne : l2 ≠ [] := fun hnil => by
      rw [hnil] at hy2
      simp at hy2
    have houtz : l1 ++ l2 = (V.lm :: mid) ++ [z] := by
      rw [← heq, hout, hrest]
      simp
    have hz2 : z ∈ l2 := mem_right_of_append_concat l1 houtz hl2ne
    rw [heq] at hnodup
    obtain ⟨-, -, hdisj⟩ := List.nodup_append.mp hnodup
    exact hdisj hz1 hz2
  have hz_rm : z = V.rm := by
    rcases (hmem z).mp hz_mem with hzl | ⟨a, haz⟩
    · exact absurd hzl hz_ne_lm
    · cases z with
      | lm => exact absurd rfl hz_ne_lm
      | rm => rfl
      | node n =>
        obtain ⟨-, ⟨b, hzb⟩⟩ := hg.balanced n ⟨(a, V.node n), haz, Or.inr rfl⟩
        exact absurd hzb (hz_no_out b)
  refine ⟨mid, ?_, ?_⟩
  · rw [hout, hrest, hz_rm]
    exact (List.cons_append _ _ _).symm
  · intro x hx
    have hx_ne_lm : x ≠ V.lm := by
      intro hxl
      apply hlm_notin_rest
      rw [hrest, ← hxl]
      exact List.mem_append_left _ hx
    have hx_ne_rm : x ≠ V.rm := by
      intro hxr
      rw [hout] at hnodup
      have hrnodup := (List.nodup_cons.mp hnodup).2
      rw [hrest, hz_rm] at hrnodup
      obtain ⟨-, -, hdisj⟩ := List.nodup_append.mp hrnodup
      exact hdisj (hxr ▸ hx) (by simp)
    cases x with
    | lm => exact absurd rfl hx_ne_lm
    | rm => exact absurd rfl hx_ne_rm
    | node n => exact ⟨n, rfl⟩

/-- Which real values a recorded `add` call names. -/
def opMentions (op : Op) (v : ℕ) : Prop :=
  match op with
  | .node x => x = v
  | .edge p c => p = v ∨ c = v

/-- A value added (as node or edge endpoint) somewhere in an op sequence. -/
def mentions (ops : List Op) (v : ℕ) : Prop := ∃ op ∈ ops, opMentions op v

theorem touches_applyOp {g : Graph} {v : ℕ} (op : Op)
    (h : ∃ e ∈ g.edges, e.1 = V.node v ∨ e.2 = V.node v) :
    ∃ e ∈ (applyOp g op).edges, e.1 = V.node v ∨ e.2 = V.node v := by
  obtain ⟨e, he, hev⟩ := h
  cases op with
  | node x => exact ⟨e, addNode_mem_of_mem he, hev⟩
  | edge p c =>
    by_cases h1 : e = (V.lm, V.node c)
    · refine ⟨(V.node p, V.node c), addEdge_makes g p c, ?_⟩
      rw [h1] at hev
      rcases hev with hx | hx
      · exact absurd (show V.lm = V.node v from hx) (by simp)
      · exact Or.inr hx
    · by_cases h2 : e = (V.node p, V.rm)
      · refine ⟨(V.node p, V.node c), addEdge_makes g p c, ?_⟩
        rw [h2] at hev
        rcases hev with hx | hx
        · exact Or.inl hx
        · exact absurd (show V.rm = V.node v from hx) (by simp)
      · exact ⟨e, addEdge_mem_of_mem he h1 h2, hev⟩

theorem touches_of_opMentions {g : Graph} {v : ℕ} (op : Op) (hm : opMentions op v) :
    ∃ e ∈ (applyOp g op).edges, e.1 = V.node v ∨ e.2 = V.node v := by
  cases op with
  | node x =>
    obtain rfl : x = v := hm
    by_cases h : hasL g (V.node x)
    · obtain ⟨c, hc⟩ := h
      refine ⟨(V.node x, c), ?_, Or.inl rfl⟩
      show (V.node x, c) ∈ (addNode g (V.node x)).edges
      rw [addNode, if_pos]
      · exact mem_outSet.mp hc
      · exact ⟨c, hc⟩
    · exact ⟨(V.lm, V.node x), (addNode_mem_anchors h).1, Or.inr rfl⟩
  | edge p c =>
    rcases hm with rfl | rfl
    · exact ⟨(V.node p, V.node c), addEdge_makes g p c, Or.inl rfl⟩
    · exact ⟨(V.node p, V.node c), addEdge_makes g p c, Or.inr rfl⟩

theorem foldl_touches : ∀ (ops : List Op) (g : Graph) (v : ℕ),
    (mentions ops v ∨ ∃ e ∈ g.edges, e.1 = V.node v ∨ e.2 = V.node v) →
    ∃ e ∈ (ops.foldl applyOp g).edges, e.1 = V.node v ∨ e.2 = V.node v := by
  intro ops
  induction ops with
  | nil =>
    intro g v h
    rcases h with ⟨op, hop, -⟩ | h
    · simp at hop
    · exact h
  | cons op rest ih =>
    intro g v h
    simp only [List.foldl_cons]
    apply ih
    rcases h with ⟨op', hop', hm⟩ | h
    · rw [List.mem_cons] at hop'
      rcases hop' with rfl | hop'
      · exact Or.inr (touches_of_opMentions op' hm)
      · exact Or.inl ⟨op', hop', hm⟩
    · exact Or.inr (touches_applyOp op h)

theorem build_touches {ops : List Op} {v : ℕ} (h : mentions ops v) :
    ∃ e ∈ (build ops).edges, e.1 = V.node v ∨ e.2 = V.node v :=
  foldl_touches ops Graph.init v (Or.inl h)

/-- C1: for every graph and every edge added via `add(p, c)`, a successful
`toposort` emits `p` strictly before `c`: the output splits as `l1 ++ l2`
with `p` occurring in `l1` and every occurrence of `c` in `l2`. -/
theorem c1_toposort_respects_added_edges (P : Picker) (ops : List Op) (p c : ℕ)
    (out : List V) (hmem : Op.edge p c ∈ ops)
    (hok : toposort P (build ops) = .ok out) :
    ∃ l1 l2, out = l1 ++ l2 ∧ V.node p ∈ l1 ∧ V.node c ∉ l1 ∧ V.node c ∈ l2 :=
  toposort_ok_order P (ginv_inSet_lm (ginv_build ops)) hok _ _ (build_mem_edge hmem)

theorem c1_witness :
    ∃ l1 l2, ([V.lm, V.node 0, V.node 1, V.rm] : List V) = l1 ++ l2 ∧
      V.node 0 ∈ l1 ∧ V.node 1 ∉ l1 ∧ V.node 1 ∈ l2 :=
  c1_toposort_respects_added_edges minPicker [Op.edge 0 1] 0 1
    [V.lm, V.node 0, V.node 1, V.rm] (by decide) (by decide)

/-- C2: whenever residual edges remain after the Kahn frontier is exhausted,
`toposort` raises the cycle error carrying exactly the residual edges (so no
partial order can be returned: the result is `.error`, never `.ok`). -/
theorem c2_residual_error (P : Picker) (g : Graph)
    (h : (kahns P g).2.edges ≠ ∅) :
    toposort P g = .error (kahns P g).2.edges :=
  toposort_error_of_residual h

theorem c2_witness :
    toposort minPicker (build [Op.edge 0 1, Op.edge 1 0]) =
      .error (kahns minPicker (build [Op.edge 0 1, Op.edge 1 0])).2.edges :=
  c2_residual_error minPicker (build [Op.edge 0 1, Op.edge 1 0]) (by decide)

/-- C7 counterexample: the list returned by `toposort` itself does contain
the two sentinel values (they are stripped only later, by `mk_dag`). -/
theorem c7_counterexample :
    toposort minPicker (build [Op.node 0]) = .ok [V.lm, V.node 0, V.rm] ∧
      V.lm ∈ [V.lm, V.node 0, V.rm] ∧ V.rm ∈ [V.lm, V.node 0, V.rm] := by
  refine ⟨by decide, by decide, by decide⟩

/-- C7 (amended): on success the `toposort` sequence holds every added real
node, exactly once, together with the two sentinels: the leftmost sentinel
first and the rightmost sentinel last — the positions `mk_dag` strips. -/
theorem c7_toposort_nodes (P : Picker) (ops : List Op) (out : List V)
    (hok : toposort P (build ops) = .ok out) :
    out.Nodup ∧ (∀ v : ℕ, mentions ops v → V.node v ∈ out) ∧
      ∃ mid, out = V.lm :: mid ++ [V.rm] ∧ ∀ x ∈ mid, ∃ n, x = V.node n := by
  have hg := ginv_build ops
  refine ⟨toposort_ok_nodup P (ginv_inSet_lm hg) hok, ?_, toposort_ok_shape P hg hok⟩
  intro v hv
  obtain ⟨⟨a, hain⟩, -⟩ := hg.balanced v (build_touches hv)
  exact (toposort_ok_mem P hok (V.node v)).mpr (Or.inr ⟨a, hain⟩)

theorem c7_witness :
    ([V.lm, V.node 0, V.rm] : List V).Nodup ∧
      (∀ v : ℕ, mentions [Op.node 0] v → V.node v ∈ [V.lm, V.node 0, V.rm]) ∧
      ∃ mid, ([V.lm, V.node 0, V.rm] : List V) = V.lm :: mid ++ [V.rm] ∧
        ∀ x ∈ mid, ∃ n, x = V.node n :=
  c7_toposort_nodes minPicker [Op.node 0] [V.lm, V.node 0, V.rm] (by decide)

/-- The value `Task.requires` may return: a single task or a sequence
(`task.py` accepts both). -/
inductive ReqResult where
  | one : ℕ → ReqResult
  | many : List ℕ → ReqResult
deriving DecidableEq, Repr

/-- Scheduler view of the task universe: tasks are identified by their value
(equal fields = same node), so a task is a natural-number id together with
its `done()` result and its `requires()` result. -/
structure TEnv where
  done : ℕ → Bool
  reqs : ℕ → ReqResult

/-- `Task._requires`: wrap a single returned task into a one-element list,
pass a sequence through unchanged. -/
def requiresW (env : TEnv) (t : ℕ) : List ℕ :=
  match env.reqs t with
  | .one x => [x]
  | .many xs => xs

/-- Loop body of `add_task.inner`: for one child, recurse when the child is
neither done nor already in the graph, then add the edge child → parent. -/
def innerStep (env : TEnv) (recurse : Graph × List ℕ → ℕ → Graph × List ℕ)
    (parent : ℕ) (acc : Graph × List ℕ) (child : ℕ) : Graph × List ℕ :=
  let acc' := if ¬(env.done child = true ∨ hasL acc.1 (V.node child))
    then recurse acc child else acc
  (addEdge acc'.1 (V.node child) (V.node parent), acc'.2)

/-- `add_task.inner(parent)`: invoke `parent._requires()` (recorded in the
second, call-trace component) and fold the loop body over the children.
Fuel-recursive; Python recurses unboundedly on cyclic `requires`. -/
def innerF (env : TEnv) : ℕ → Graph × List ℕ → ℕ → Graph × List ℕ
  | 0, st, _ => st
  | fuel + 1, st, parent =>
    (requiresW env parent).foldl (innerStep env (innerF env fuel) parent)
      (st.1, st.2 ++ [parent])

/-- `runner.add_task`: skip tasks that are done or already present; otherwise
recursively add the dependency subtree, then the task itself as a node. -/
def add_task (env : TEnv) (fuel : ℕ) (st : Graph × List ℕ) (task : ℕ) :
    Graph × List ℕ :=
  if ¬(env.done task = true ∨ hasL st.1 (V.node task)) then
    let st' := innerF env fuel st task
    (addNode st'.1 (V.node task), st'.2)
  else st

/-- The graph state and `_requires`-call trace after `mk_dag` has added all
root tasks to a fresh graph. -/
def buildState (env : TEnv) (fuel : ℕ) (tasks : List ℕ) : Graph × List ℕ :=
  tasks.foldl (add_task env fuel) (Graph.init, [])

/-- The destructuring `leftmost, *sorted, rightmost = graph.toposort()` of
`mk_dag` together with its two asserts: requires the first element to be the
leftmost sentinel and the last the rightmost, and returns the middle. -/
def stripSentinels (l : List V) : Option (List V) :=
  match l with
  | V.lm :: rest =>
    match rest.getLast? with
    | some V.rm => some rest.dropLast
    | _ => none
  | _ => none

/-- `runner.mk_dag`: build the graph from the root tasks, topologically sort
it, strip the sentinels.  The returned value is the ordered real-node list
(the per-node `NodeInfo` pairing of the source carries no extra graph state). -/
def mk_dag (P : Picker) (env : TEnv) (fuel : ℕ) (tasks : List ℕ) : Option (List V) :=
  match toposort P (buildState env fuel tasks).1 with
  | .error _ => none
  | .ok out => stripSentinels out

/-- Every task recorded in the `_requires` call trace failed its `done()`
check at the moment it was expanded. -/
theorem innerF_called (env : TEnv) :
    ∀ (fuel : ℕ) (parent : ℕ) (st : Graph × List ℕ),
      env.done parent = false → (∀ x ∈ st.2, env.done x = false) →
      ∀ x ∈ (innerF env fuel st parent).2, env.done x = false := by
  intro fuel
  induction fuel with
  | zero =>
    intro parent st _ hst x hx
    exact hst x hx
  | succ fuel ih =>
    intro parent st hp hst
    simp only [innerF]
    have hstart : ∀ x ∈ st.2 ++ [parent], env.done x = false := by
      intro x hx
      rcases List.mem_append.mp hx with hx | hx
      · exact hst x hx
      · rw [List.mem_singleton] at hx
        rw [hx]
        exact hp
    have H : ∀ (l : List ℕ) (acc : Graph × List ℕ),
        (∀ x ∈ acc.2, env.done x = false) →
        ∀ x ∈ (l.foldl (innerStep env (innerF env fuel) parent) acc).2,
          env.done x = false := by
      intro l
      induction l with
      | nil => exact fun acc hacc x hx => hacc x hx
      | cons child rest ihl =>
        intro acc hacc
        simp only [List.foldl_cons]
        apply ihl
        simp only [innerStep]
        split
        next hguard =>
          have hchild : env.done child = false := by
            cases hdc : env.done child
            · rfl
            · exact absurd (Or.inl hdc) hguard
          exact ih child acc hchild hacc
        next => exact hacc
    exact H _ _ hstart

theorem add_task_called (env : TEnv) (fuel : ℕ) (st : Graph × List ℕ) (task : ℕ)
    (hst : ∀ x ∈ st.2, env.done x = false) :
    ∀ x ∈ (add_task env fuel st task).2, env.done x = false := by
  rw [add_task]
  split
  next hguard =>
    have htask : env.done task = false := by
      cases hdc : env.done task
      · rfl
      · exact absurd (Or.inl hdc) hguard
    exact innerF_called env fuel task st htask hst
  next => exact hst

theorem buildState_called (env : TEnv) (fuel : ℕ) (tasks : List ℕ) :
    ∀ x ∈ (buildState env fuel tasks).2, env.done x = false := by
  rw [buildState]
  have H : ∀ (l : List ℕ) (st : Graph × List ℕ),
      (∀ x ∈ st.2, env.done x = false) →
      ∀ x ∈ (l.foldl (add_task env fuel) st).2, env.done x = false := by
    intro l
    induction l with
    | nil => exact fun st hst x hx => hst x hx
    | cons task rest ihl =>
      intro st hst
      simp only [List.foldl_cons]
      exact ihl _ (add_task_called env fuel st task hst)
  exact H tasks (Graph.init, []) (by simp)

/-- The graph component of every scheduler state satisfies the construction
invariants: `inner` and `add_task` only issue `Graph.add` calls on real
(task-id) values. -/
theorem innerF_ginv (env : TEnv) :
    ∀ (fuel : ℕ) (parent : ℕ) (st : Graph × List ℕ),
      GInv st.1 → GInv (innerF env fuel st parent).1 := by
  intro fuel
  induction fuel with
  | zero => exact fun parent st hst => hst
  | succ fuel ih =>
    intro parent st hst
    simp only [innerF]
    have H : ∀ (l : List ℕ) (acc : Graph × List ℕ),
        GInv acc.1 →
        GInv ((l.foldl (innerStep env (innerF env fuel) parent) acc)).1 := by
      intro l
      induction l with
      | nil => exact fun acc hacc => hacc
      | cons child rest ihl =>
        intro acc hacc
        simp only [List.foldl_cons]
        apply ihl
        simp only [innerStep]
        split
        next => exact ginv_addEdge (ih child acc hacc) child parent
        next => exact ginv_addEdge hacc child parent
    exact H _ _ hst

theorem buildState_ginv (env : TEnv) (fuel : ℕ) (tasks : List ℕ) :
    GInv (buildState env fuel tasks).1 := by
  rw [buildState]
  have H : ∀ (l : List ℕ) (st : Graph × List ℕ),
      GInv st.1 → GInv (l.foldl (add_task env fuel) st).1 := by
    intro l
    induction l with
    | nil => exact fun st hst => hst
    | cons task rest ihl =>
      intro st hst
      simp only [List.foldl_cons]
      apply ihl
      rw [add_task]
      split
      next => exact ginv_addNode (innerF_ginv env fuel task st hst) task
      next => exact hst
  exact H tasks (Graph.init, []) ginv_init

/-- C6 counterexample: a task that is already done and is passed as a root is
skipped entirely by `add_task` — it does not appear in the ordered list. -/
def envAllDone : TEnv := ⟨fun _ => true, fun _ => ReqResult.many []⟩

theorem c6_counterexample :
    mk_dag minPicker envAllDone 1 [0] = some [] ∧ V.node 0 ∉ ([] : List V) :=
  ⟨by decide, by simp⟩

/-- C6 (amended): a done task never has `_requires` invoked on it, and when
it was added to the graph (because some discovered not-done task requires
it), it appears in the ordered list `mk_dag` returns; a done task passed only
as a root is not added at all. -/
theorem c6_done_task (P : Picker) (env : TEnv) (fuel : ℕ) (tasks : List ℕ)
    (t : ℕ) (lst : List V) (hdone : env.done t = true)
    (hok : mk_dag P env fuel tasks = some lst) :
    t ∉ (buildState env fuel tasks).2 ∧
      ((∃ e ∈ (buildState env fuel tasks).1.edges,
          e.1 = V.node t ∨ e.2 = V.node t) → V.node t ∈ lst) := by
  constructor
  · intro hmem
    have hfalse := buildState_called env fuel tasks t hmem
    rw [hdone] at hfalse
    cases hfalse
  · intro htouch
    rw [mk_dag] at hok
    cases htop : toposort P (buildState env fuel tasks).1 with
    | error e =>
      rw [htop] at hok
      cases hok
    | ok out =>
      rw [htop] at hok
      have hg := buildState_ginv env fuel tasks
      obtain ⟨mid, hshape, _⟩ := toposort_ok_shape P hg htop
      have hshape' : out = V.lm :: (mid ++ [V.rm]) := by
        rw [hshape, List.cons_append]
      have hstrip : stripSentinels out = some mid := by
        rw [hshape', stripSentinels]
        rw [List.getLast?_concat]
        rw [List.dropLast_concat]
      have hok2 : stripSentinels out = some lst := hok
      rw [hstrip] at hok2
      obtain rfl : mid = lst := Option.some.inj hok2
      obtain ⟨⟨a, hain⟩, -⟩ := hg.balanced t htouch
      have hmem_out : V.node t ∈ out :=
        (toposort_ok_mem P htop (V.node t)).mpr (Or.inr ⟨a, hain⟩)
      rw [hshape'] at hmem_out
      rcases List.mem_cons.mp hmem_out with heq | hmem_out
      · exact absurd heq (by simp)
      · rcases List.mem_append.mp hmem_out with hmm | hmm
        · exact hmm
        · rw [List.mem_singleton] at hmm
          exact absurd hmm (by simp)

/-- Environment for the C6 witness: task 0 is not done and requires task 1,
which is already done. -/
def envDoneDep : TEnv :=
  ⟨fun t => t == 1, fun t => if t = 0 then ReqResult.many [1] else ReqResult.many []⟩

set_option maxHeartbeats 2000000 in
theorem c6_witness :
    (1 : ℕ) ∉ (buildState envDoneDep 2 [0]).2 ∧
      ((∃ e ∈ (buildState envDoneDep 2 [0]).1.edges,
          e.1 = V.node 1 ∨ e.2 = V.node 1) → V.node 1 ∈ [V.node 1, V.node 0]) :=
  c6_done_task minPicker envDoneDep 2 [0] 1 [V.node 1, V.node 0] (by decide) (by decide)

theorem innerF_congr (env₁ env₂ : TEnv)
    (hdone : ∀ u, env₁.done u = env₂.done u)
    (hreq : ∀ u, requiresW env₁ u = requiresW env₂ u) :
    ∀ (fuel : ℕ) (st : Graph × List ℕ) (parent : ℕ),
      innerF env₁ fuel st parent = innerF env₂ fuel st parent := by
  intro fuel
  induction fuel with
  | zero => intro st parent; rfl
  | succ fuel ih =>
    intro st parent
    simp only [innerF]
    rw [hreq parent]
    have hstep : ∀ (acc : Graph × List ℕ) (child : ℕ),
        innerStep env₁ (innerF env₁ fuel) parent acc child =
        innerStep env₂ (innerF env₂ fuel) parent acc child := by
      intro acc child
      simp only [innerStep]
      rw [hdone child, ih acc child]
    have H : ∀ (l : List ℕ) (acc : Graph × List ℕ),
        l.foldl (innerStep env₁ (innerF env₁ fuel) parent) acc =
        l.foldl (innerStep env₂ (innerF env₂ fuel) parent) acc := by
      intro l
      induction l with
      | nil =>
        intro acc
        simp only [List.foldl_nil]
      | cons a rest ihl =>
        intro acc
        simp only [List.foldl_cons]
        rw [hstep acc a]
        exact ihl _
    exact H _ _

theorem mk_dag_congr (P : Picker) (env₁ env₂ : TEnv) (fuel : ℕ) (tasks : List ℕ)
    (hdone : ∀ u, env₁.done u = env₂.done u)
    (hreq : ∀ u, requiresW env₁ u = requiresW env₂ u) :
    mk_dag P env₁ fuel tasks = mk_dag P env₂ fuel tasks := by
  have hadd : ∀ (st : Graph × List ℕ) (task : ℕ),
      add_task env₁ fuel st task = add_task env₂ fuel st task := by
    intro st task
    simp only [add_task]
    rw [hdone task, innerF_congr env₁ env₂ hdone hreq fuel st task]
  have hbuild : buildState env₁ fuel tasks = buildState env₂ fuel tasks := by
    simp only [buildState]
    have H : ∀ (l : List ℕ) (st : Graph × List ℕ),
        l.foldl (add_task env₁ fuel) st = l.foldl (add_task env₂ fuel) st := by
      intro l
      induction l with
      | nil =>
        intro st
        simp only [List.foldl_nil]
      | cons a rest ihl =>
        intro st
        simp only [List.foldl_cons]
        rw [hadd st a]
        exact ihl _
    exact H tasks _
  rw [mk_dag, mk_dag, hbuild]

/-- C10: a `requires` returning a single task is accepted: `_requires` wraps
it into a one-element list, and the whole graph construction behaves exactly
as if a one-element sequence had been returned. -/
theorem c10_single_requires (P : Picker) (env : TEnv) (fuel : ℕ) (tasks : List ℕ)
    (t x : ℕ) (h : env.reqs t = ReqResult.one x) :
    requiresW env t = [x] ∧
      mk_dag P env fuel tasks =
        mk_dag P ⟨env.done, fun u => if u = t then ReqResult.many [x] else env.reqs u⟩
          fuel tasks := by
  have hreq1 : requiresW env t = [x] := by
    simp only [requiresW, h]
  refine ⟨hreq1, mk_dag_congr P env _ fuel tasks (fun u => rfl) ?_⟩
  intro u
  by_cases hu : u = t
  · subst hu
    simp [requiresW, h]
  · simp [requiresW, hu]

def envOne : TEnv := ⟨fun _ => false, fun _ => ReqResult.one 1⟩

theorem c10_witness :
    requiresW envOne 0 = [1] ∧
      mk_dag minPicker envOne 2 [0] =
        mk_dag minPicker
          ⟨envOne.done, fun u => if u = 0 then ReqResult.many [1] else envOne.reqs u⟩
          2 [0] :=
  c10_single_requires minPicker envOne 2 [0] 0 1 rfl

/-- Resolution of one concurrent unit (run or cleanup): the coroutine either
returns its task (success) or raises one of the scheduler's failure
exceptions.  `failedCleanup` is modelled from the spec: the error taxonomy
lives in `waluigi/errors.py`, which is absent from the sources; the spec's
taxonomy lists `FailedRun`, `FailedCleanup` and `FailedDependency` as
distinct failure kinds. -/
inductive Outcome where
  | ok : Outcome
  | failedRun : Outcome
  | failedDep : Outcome
  | failedCleanup : Outcome
deriving DecidableEq, Repr

/-- `Task._run_after(context, *tasks)` as a function of the resolved outcomes
of the awaited dependency units and of what the body does: if the dependency
gather raised, re-raise as `FailedDependency` (body never entered); otherwise
enter the resource allocation and the run body, wrapping any raise — from the
allocation request or from `run_async` — as `FailedRun`.  The second
component records whether `run_async` was invoked. -/
def run_after (deps : List Outcome) (allocFails runRaises : Bool) : Outcome × Bool :=
  if deps.any (fun d => d ≠ Outcome.ok) then (Outcome.failedDep, false)
  else if allocFails then (Outcome.failedRun, false)
  else if runRaises then (Outcome.failedRun, true)
  else (Outcome.ok, true)

/-- `TaskWithCleanup._cleanup_after(context, *tasks)` as a function of the
resolved outcomes of the awaited units: a failed await re-raises as
`FailedDependency` without entering the cleanup body; a raise from
`cleanup_async` is wrapped — by the source, line 196 of `task.py` — as
`FailedRun`.  The second component records whether `cleanup_async` was
invoked. -/
def cleanup_after (deps : List Outcome) (cleanupRaises : Bool) : Outcome × Bool :=
  if deps.any (fun d => d ≠ Outcome.ok) then (Outcome.failedDep, false)
  else if cleanupRaises then (Outcome.failedRun, true)
  else (Outcome.ok, true)

/-- The wiring `run_dag` gives one task: its run-unit dependencies are the
run units of its direct predecessors (`edges.left`), and its cleanup-unit
dependencies are the run units of its direct successors (`edges.right`)
followed by its own run unit when the task was not already done. -/
structure TaskSpec where
  id : ℕ
  left : List ℕ
  right : List ℕ
  done : Bool

/-- Dependencies awaited by `runs[task]` in `run_dag`. -/
def runDeps (runs : ℕ → Outcome) (t : TaskSpec) : List Outcome :=
  t.left.map runs

/-- Dependencies awaited by `cleanups[task]` in `run_dag`. -/
def cleanupDeps (runs : ℕ → Outcome) (t : TaskSpec) : List Outcome :=
  t.right.map runs ++ (if t.done then [] else [runs t.id])

/-- C3: a task whose run unit awaits dependencies resolves to
`FailedDependency` — without `run_async` ever being invoked — as soon as any
awaited dependency resolved to a failure. -/
theorem c3_failed_dependency_skips_run (runs : ℕ → Outcome) (t : TaskSpec)
    (allocFails runRaises : Bool)
    (h : ∃ d ∈ runDeps runs t, d ≠ Outcome.ok) :
    run_after (runDeps runs t) allocFails runRaises = (Outcome.failedDep, false) := by
  rw [run_after, if_pos]
  rw [List.any_eq_true]
  obtain ⟨d, hd, hne⟩ := h
  exact ⟨d, hd, by simp [hne]⟩

theorem c3_witness :
    run_after (runDeps (fun _ => Outcome.failedRun) ⟨0, [1], [], false⟩) false false =
      (Outcome.failedDep, false) :=
  c3_failed_dependency_skips_run (fun _ => Outcome.failedRun) ⟨0, [1], [], false⟩
    false false ⟨Outcome.failedRun, by simp [runDeps], by simp⟩

/-- C4 counterexample: when a direct dependent's run unit resolved to a
failure, the cleanup body is not invoked (the unit resolves to
`FailedDependency` instead), refuting "invoked regardless of whether those
runs succeeded or failed". -/
theorem c4_counterexample :
    cleanup_after [Outcome.failedRun] false = (Outcome.failedDep, false) ∧
      (cleanup_after [Outcome.failedRun] false).2 = false := by
  refine ⟨by decide, by decide⟩

/-- C4 (amended): the cleanup unit awaits the task's own run unit (when the
task was not already done) and every direct dependent's run unit; the body is
invoked exactly when all of those resolved successfully, and when any of them
resolved to a failure the unit becomes `FailedDependency` with the body never
invoked.  (Awaiting resolved outcomes is the embedding of "does not start
until ... have completed".) -/
theorem c4_cleanup_gating (runs : ℕ → Outcome) (t : TaskSpec) (cleanupRaises : Bool) :
    ((∀ d ∈ cleanupDeps runs t, d = Outcome.ok) →
      cleanup_after (cleanupDeps runs t) cleanupRaises =
        (if cleanupRaises then Outcome.failedRun else Outcome.ok, true)) ∧
    ((∃ d ∈ cleanupDeps runs t, d ≠ Outcome.ok) →
      cleanup_after (cleanupDeps runs t) cleanupRaises = (Outcome.failedDep, false)) := by
  constructor
  · intro hall
    rw [cleanup_after, if_neg]
    · cases cleanupRaises <;> simp
    · rw [List.any_eq_true]
      rintro ⟨d, hd, hne⟩
      simp only [decide_eq_true_eq] at hne
      exact hne (hall d hd)
  · intro hex
    rw [cleanup_after, if_pos]
    rw [List.any_eq_true]
    obtain ⟨d, hd, hne⟩ := hex
    exact ⟨d, hd, by simp [hne]⟩

theorem c4_witness :
    ((∀ d ∈ cleanupDeps (fun _ => Outcome.ok) ⟨0, [], [1, 2], false⟩, d = Outcome.ok) →
      cleanup_after (cleanupDeps (fun _ => Outcome.ok) ⟨0, [], [1, 2], false⟩) false =
        (if false then Outcome.failedRun else Outcome.ok, true)) ∧
    ((∃ d ∈ cleanupDeps (fun _ => Outcome.ok) ⟨0, [], [1, 2], false⟩, d ≠ Outcome.ok) →
      cleanup_after (cleanupDeps (fun _ => Outcome.ok) ⟨0, [], [1, 2], false⟩) false =
        (Outcome.failedDep, false)) :=
  c4_cleanup_gating (fun _ => Outcome.ok) ⟨0, [], [1, 2], false⟩ false

/-- C8: the code evaluated at the failing input — a cleanup body that raises,
after all awaited units succeeded — resolves the cleanup unit to `FailedRun`
(task.py line 196 wraps the raise in `FailedRun(self)`), not to the
`FailedCleanup` the spec prescribes; `log_results` (runner.py line 132)
expects cleanup failures to be caught as `FailedCleanup`. -/
theorem c8_cleanup_failure_is_failedrun :
    cleanup_after [Outcome.ok] true = (Outcome.failedRun, true) ∧
      (cleanup_after [Outcome.ok] true).1 ≠ Outcome.failedCleanup := by
  refine ⟨by decide, by decide⟩

/-- `resources.Resources`: Python `Counter`s over resource names hold the
in-use and available counts.  A `Counter` with the non-negative counts the
guarded operations maintain is exactly a multiset over the name space
(names embedded as naturals); `c <= d` is multiset inclusion, `+`/`-`
multiset sum and truncated difference.  The wait/notify condition variable
carries no state; the suspension point of `request_resources` is modelled by
the `Option` below. -/
structure Resources where
  used : Multiset ℕ
  available : Multiset ℕ
deriving DecidableEq

/-- `Resources.total`: `self.used + self.available`. -/
def Resources.total (s : Resources) : Multiset ℕ := s.used + s.available

/-- `Resources.return_resources`: raise `ResourceError` when returning counts
not in use, otherwise move them from `used` back to `available`. -/
def return_resources (s : Resources) (res : Multiset ℕ) : Except Unit Resources :=
  if res ≤ s.used then .ok ⟨s.used - res, s.available + res⟩ else .error ()

/-- `Resources.add_resources`: grow `available` (and hence the total). -/
def add_resources (s : Resources) (res : Multiset ℕ) : Resources :=
  ⟨s.used, s.available + res⟩

/-- `Resources.request_resources`: raise `ResourceError` when the request can
never be satisfied; otherwise wait until the request fits in `available` and
move it to `used`.  `some` is the state after the wait completes; `none`
models the still-suspended waiter. -/
def request_resources (s : Resources) (req : Multiset ℕ) :
    Except Unit (Option Resources) :=
  if req ≤ s.total then
    (if req ≤ s.available then .ok (some ⟨s.used + req, s.available - req⟩)
     else .ok none)
  else .error ()

/-- C5: `available + used` (the total, fixed at construction) is preserved by
`request_resources` and `return_resources`, and changed — by exactly the
added counts — only by `add_resources`.  Multiset equality is count-wise, so
this is the per-resource-name equation `available[r] + used[r] = total[r]`. -/
theorem c5_pool_sum_invariant (s s₁ s₂ : Resources) (req res extra : Multiset ℕ) :
    (request_resources s req = .ok (some s₁) → s₁.total = s.total) ∧
    (return_resources s res = .ok s₂ → s₂.total = s.total) ∧
    (add_resources s extra).total = s.total + extra := by
  refine ⟨?_, ?_, ?_⟩
  · intro h
    rw [request_resources] at h
    split at h
    next htot =>
      split at h
      next havail =>
        obtain rfl : (⟨s.used + req, s.available - req⟩ : Resources) = s₁ := by
          cases h
          rfl
        show (s.used + req) + (s.available - req) = s.used + s.available
        rw [add_assoc, add_tsub_cancel_of_le havail]
      next => cases h
    next => cases h
  · intro h
    rw [return_resources] at h
    split at h
    next hused =>
      obtain rfl : (⟨s.used - res, s.available + res⟩ : Resources) = s₂ := by
        cases h
        rfl
      show (s.used - res) + (s.available + res) = s.used + s.available
      rw [add_comm s.available res, ← add_assoc, tsub_add_cancel_of_le hused]
    next => cases h
  · show s.used + (s.available + extra) = (s.used + s.available) + extra
    rw [add_assoc]

theorem c5_witness :
    (request_resources ⟨{0}, {0, 1}⟩ {0} = .ok (some ⟨{0, 0}, {1}⟩) →
      (⟨{0, 0}, {1}⟩ : Resources).total = (⟨{0}, {0, 1}⟩ : Resources).total) ∧
    (return_resources ⟨{0}, {0, 1}⟩ {0} = .ok ⟨∅, {0, 0, 1}⟩ →
      (⟨∅, {0, 0, 1}⟩ : Resources).total = (⟨{0}, {0, 1}⟩ : Resources).total) ∧
    (add_resources ⟨{0}, {0, 1}⟩ {2}).total = (⟨{0}, {0, 1}⟩ : Resources).total + {2} :=
  c5_pool_sum_invariant ⟨{0}, {0, 1}⟩ ⟨{0, 0}, {1}⟩ ⟨∅, {0, 0, 1}⟩ {0} {0} {2}

/-- The single-key tag prefix of `bundle.py`. -/
def PREFIX : List Char := "__bundle_class.".data

/- Python values as `bundle.py` sees them: JSON-primitive leaves, plain
dicts (returned untouched by both encoder and decoder), and `Bundle`
instances — a fully-qualified class name plus named fields.  Strings are
`List Char` so that prefix reasoning stays elementary. -/
mutual
inductive PyVal where
  | int : Int → PyVal
  | str : List Char → PyVal
  | dict : Fields → PyVal
  | bundle : List Char → Fields → PyVal
inductive Fields where
  | fnil : Fields
  | fcons : List Char → PyVal → Fields → Fields
end

/- `Bundle._asdict`: a bundle becomes the single-key tagged dict
keyed by PREFIX followed by the class name, holding the field dict; a
non-Bundle field value is stored untouched.  (`asdictF` maps the encoding
over field values; on non-bundle values it is the identity, matching the
`isinstance` branch.) -/
mutual
def asdict : PyVal → PyVal
  | .int n => .int n
  | .str s => .str s
  | .dict f => .dict f
  | .bundle name f => .dict (.fcons (PREFIX ++ name) (.dict (asdictF f)) .fnil)
def asdictF : Fields → Fields
  | .fnil => .fnil
  | .fcons k v rest => .fcons k (asdict v) (asdictF rest)
end

/- `bundle.from_dict`: a dict with exactly one key starting with the tag
prefix is decoded by resolving the class name (`pydoc.locate`, modelled as
total on the encoder-produced fully-qualified names) and rebuilding it from
the recursively decoded fields; any other value is returned as is.  (A tagged
key whose value is not a dict makes Python raise on `.items()`; unreachable
from the encoder, the embedding returns it unchanged.) -/
mutual
def from_dict : PyVal → PyVal
  | .dict (.fcons k (.dict inner) .fnil) =>
    if PREFIX.isPrefixOf k then .bundle (k.drop PREFIX.length) (from_dictF inner)
    else .dict (.fcons k (.dict inner) .fnil)
  | v => v
def from_dictF : Fields → Fields
  | .fnil => .fnil
  | .fcons k v rest => .fcons k (from_dict v) (from_dictF rest)
end

/-- `Bundle.tojson`: `json.dumps(self._asdict())`.  On the encoder's image —
tagged dicts over int/str leaves — `json.loads ∘ json.dumps` is the
identity, so the serialized form is represented by the dict itself. -/
def tojson (v : PyVal) : PyVal := asdict v

/-- `bundle.from_json`: `from_dict(json.loads(json_str))`. -/
def from_json (j : PyVal) : PyVal := from_dict j

/- The fragment the round-trip claim quantifies over: `Bundle` instances
whose field values are JSON primitives or nested bundles (a raw dict field
could collide with the tag encoding; no task/target field is one). -/
mutual
def goodV : PyVal → Bool
  | .int _ => true
  | .str _ => true
  | .dict _ => false
  | .bundle _ f => goodF f
def goodF : Fields → Bool
  | .fnil => true
  | .fcons _ v rest => goodV v && goodF rest
end

theorem prefix_isPrefixOf_append (name : List Char) :
    PREFIX.isPrefixOf (PREFIX ++ name) = true :=
  List.isPrefixOf_iff_prefix.mpr (List.prefix_append _ _)

mutual
theorem roundtrip_val : ∀ (v : PyVal), goodV v = true → from_dict (asdict v) = v
  | .int _, _ => rfl
  | .str _, _ => rfl
  | .dict _, h => by cases h
  | .bundle name f, h => by
    show from_dict (.dict (.fcons (PREFIX ++ name) (.dict (asdictF f)) .fnil)) = _
    rw [from_dict, if_pos (prefix_isPrefixOf_append name)]
    rw [List.drop_left, roundtrip_fields f h]
theorem roundtrip_fields : ∀ (f : Fields), goodF f = true → from_dictF (asdictF f) = f
  | .fnil, _ => rfl
  | .fcons k v rest, h => by
    simp only [goodF, Bool.and_eq_true] at h
    obtain ⟨hv, hrest⟩ := h
    show Fields.fcons k (from_dict (asdict v)) (from_dictF (asdictF rest)) = _
    rw [roundtrip_val v hv, roundtrip_fields rest hrest]
end

/-- C9: encoding a task value (`Bundle` instance) with `tojson` and decoding
with `from_json` reproduces a value equal to the original under the
field-wise (dataclass) equality the bundles derive. -/
theorem c9_roundtrip (v : PyVal) (h : goodV v = true) : from_json (tojson v) = v :=
  roundtrip_val v h

theorem c9_witness :
    goodV (PyVal.bundle "m.Cls".data
      (Fields.fcons "a".data (PyVal.int 3)
        (Fields.fcons "b".data (PyVal.bundle "m.T".data Fields.fnil) Fields.fnil))) = true ∧
    from_json (tojson (PyVal.bundle "m.Cls".data
      (Fields.fcons "a".data (PyVal.int 3)
        (Fields.fcons "b".data (PyVal.bundle "m.T".data Fields.fnil) Fields.fnil)))) =
      PyVal.bundle "m.Cls".data
        (Fields.fcons "a".data (PyVal.int 3)
          (Fields.fcons "b".data (PyVal.bundle "m.T".data Fields.fnil) Fields.fnil)) :=
  ⟨rfl, c9_roundtrip _ rfl⟩
